import Mathlib

/-!
Verification of the product-catalog cleaning pipeline (`src/pipeline.py`)
against its natural-language specification.

The pipeline is embedded shallowly: polars expressions become pure Lean
functions on lists of row records, `Float64` prices become exact rationals
(`ℚ`), nullable columns become `Option`, and the lazy frame becomes an
ordered `List` of rows.  Definitions follow the source; definitions whose
doc comment starts with `Modelled from the spec:` or `Spec wording:` follow
the specification text instead and are compared against the source-derived
ones.
-/

namespace Pipeline

/-! ### Character and string helpers -/

/-- ASCII digit test (regex class `[0-9]`). -/
def isAsciiDigit (c : Char) : Bool :=
  decide ('0' ≤ c) && decide (c ≤ '9')

/-- Characters kept by `str.replace_all(r"[^0-9,.]", "")`. -/
def isKeptNumericChar (c : Char) : Bool :=
  isAsciiDigit c || decide (c = ',') || decide (c = '.')

/-- `str.replace_all(r"[^0-9,.]", "")`: drop every character that is not a
digit, comma or period. -/
def stripNonNumeric (cs : List Char) : List Char :=
  cs.filter isKeptNumericChar

/-- `str.replace(",", ".")`: polars `replace` rewrites only the first match. -/
def replaceFirstComma : List Char → List Char
  | [] => []
  | c :: cs => if c = ',' then '.' :: cs else c :: replaceFirstComma cs

def digitVal (c : Char) : ℕ := c.toNat - 48

/-- Value of a digit string, most significant digit first. -/
def digitsVal (cs : List Char) : ℕ :=
  cs.foldl (fun acc c => 10 * acc + digitVal c) 0

def allDigits (cs : List Char) : Bool := cs.all isAsciiDigit

/-- `cast(pl.Float64, strict=False)` on the cleaned price text: a decimal
literal `digits`, `digits.digits`, `digits.` or `.digits` parses to its exact
rational value; anything else (empty string, a second separator, any
remaining non-digit) yields null.  Floats are idealised as exact rationals. -/
def parseDecimal (cs : List Char) : Option ℚ :=
  let intPart := cs.takeWhile (fun c => !decide (c = '.'))
  let rest := cs.dropWhile (fun c => !decide (c = '.'))
  match rest with
  | [] =>
    if !intPart.isEmpty && allDigits intPart then some (digitsVal intPart) else none
  | _ :: frac =>
    if frac.all (fun c => !decide (c = '.')) && allDigits intPart && allDigits frac
        && (!intPart.isEmpty || !frac.isEmpty) then
      some ((digitsVal intPart : ℚ) + (digitsVal frac : ℚ) / (10 : ℚ) ^ frac.length)
    else none

/-! ### Rounding (`Expr.round(2)`, half away from zero as in Rust `f64::round`) -/

def roundHalfAwayInt (q : ℚ) : ℤ :=
  if 0 ≤ q then ⌊q + 1 / 2⌋ else -⌊-q + 1 / 2⌋

/-- Round to 2 decimal places. -/
def round2 (q : ℚ) : ℚ :=
  (roundHalfAwayInt (q * 100) : ℚ) / 100

/-! ### Data model -/

/-- One input line, columns in the fixed positional order of `load_lazy_data`. -/
structure RawRow where
  id : Int
  raw_name : String
  raw_price : String
  shop : String
  date : String
deriving DecidableEq, Repr

/-- Row after `normalize_pricing`: the three numeric columns it adds. -/
structure NormRow extends RawRow where
  is_usd : Bool
  raw_float : Option ℚ
  corrected_float : Option ℚ
  price_final : Option ℚ
deriving DecidableEq, Repr

/-- Row after `generate_fingerprints`. -/
structure FpRow extends NormRow where
  fingerprint : String
deriving DecidableEq, Repr

/-- `PipelineConfig` with the source's default quality gates and synonyms. -/
structure PipelineConfig where
  input_path : String
  output_path : String
  usd_to_eur_rate : ℚ
  min_price_eur : ℚ := 5
  max_price_multiplier : ℚ := 10
  price_scale_threshold : ℚ := 10000
  synonyms : List (String × String) :=
    [("ps5", "playstation 5"), ("ps4", "playstation 4"), ("s21", "galaxy s21"),
     ("macbook", "apple macbook"), ("playstation5", "playstation 5")]

/-! ### Price Normalizer (`normalize_pricing`) -/

/-- `str.contains(r"\$")`. -/
def containsDollar (s : String) : Bool :=
  s.data.any (fun c => decide (c = '$'))

/-- Per-row translation of the three `with_columns` blocks of
`normalize_pricing`. -/
def normalizeRow (config : PipelineConfig) (r : RawRow) : NormRow :=
  let is_usd := containsDollar r.raw_price
  let raw_float := parseDecimal (replaceFirstComma (stripNonNumeric r.raw_price.data))
  let corrected_float :=
    raw_float.map (fun x => if config.price_scale_threshold < x then x / 100 else x)
  let price_final :=
    (corrected_float.map (fun x => if is_usd then x / config.usd_to_eur_rate else x)).map round2
  { toRawRow := r, is_usd := is_usd, raw_float := raw_float,
    corrected_float := corrected_float, price_final := price_final }

def normalize_pricing (config : PipelineConfig) (rows : List RawRow) : List NormRow :=
  rows.map (normalizeRow config)

/-! ### Fingerprint Generator (`generate_fingerprints`) -/

/-- `str.to_lowercase` restricted to the characters that occur in this
catalog: ASCII letters plus the Latin-1 uppercase range (U+00C0..U+00DE
except the multiplication sign), which Unicode lowercases by adding 32. -/
def toLowerLatin (c : Char) : Char :=
  if decide ('A' ≤ c) && decide (c ≤ 'Z') then Char.ofNat (c.toNat + 32)
  else if decide (0xC0 ≤ c.toNat) && decide (c.toNat ≤ 0xDE) && !decide (c.toNat = 0xD7) then
    Char.ofNat (c.toNat + 32)
  else c

/-- The best (leftmost-longest) pattern of `subs` matching at the head of
`t`, as the Aho-Corasick automaton behind `str.replace_many` selects it;
empty patterns never match. -/
def findBestMatch (subs : List (List Char × List Char)) (t : List Char) :
    Option (List Char × List Char) :=
  subs.foldl
    (fun acc kv =>
      if !kv.1.isEmpty && kv.1.isPrefixOf t then
        match acc with
        | none => some kv
        | some best => if best.1.length < kv.1.length then some kv else acc
      else acc)
    none

/-- `str.replace_many`: a single left-to-right pass replacing non-overlapping
matches of any pattern; replacement text is emitted, never rescanned.  The
fuel argument only bounds the recursion and is at least the text length at
every call site. -/
def replaceManyAux (subs : List (List Char × List Char)) : ℕ → List Char → List Char
  | _, [] => []
  | 0, _ :: _ => []
  | fuel + 1, c :: rest =>
    match findBestMatch subs (c :: rest) with
    | some kv => kv.2 ++ replaceManyAux subs fuel (rest.drop (kv.1.length - 1))
    | none => c :: replaceManyAux subs fuel rest

/-- The substitution step `str.replace_many(keys, vals)` of
`generate_fingerprints`. -/
def applySynonyms (synonyms : List (String × String)) (s : List Char) : List Char :=
  replaceManyAux (synonyms.map (fun kv => (kv.1.data, kv.2.data))) s.length s

/-- The alternatives of the stopword regex, in source order.  The last one is
the literal bytes present in `pipeline.py`: `limit` followed by U+00C3 U+00A9
(mojibake of an UTF-8-encoded e-acute read back as Latin-1) and `e`. -/
def stopwordAlternatives : List (List Char) :=
  ["edition".data, "eur".data, "promo".data, "soldes".data, "offre".data,
   "vente".data, "version".data, "limitÃ©e".data]

/-- Regex word character (`\b` boundary test), restricted to ASCII
alphanumerics, underscore and Latin-1 letters — the only characters these
inputs contain.  U+00A9 (copyright sign) is not a word character. -/
def isWordChar (c : Char) : Bool :=
  (decide ('a' ≤ c) && decide (c ≤ 'z')) || (decide ('A' ≤ c) && decide (c ≤ 'Z'))
    || isAsciiDigit c || decide (c = '_')
    || (decide (0xC0 ≤ c.toNat) && decide (c.toNat ≤ 0xFF)
        && !decide (c.toNat = 0xD7) && !decide (c.toNat = 0xF7))

/-- Does a word character follow the matched alternative `a` in `t`
(which would block the trailing `\b`)? -/
def boundaryBlockedAfter (a t : List Char) : Bool :=
  match t.drop a.length with
  | [] => false
  | c :: _ => isWordChar c

/-- Try the stopword alternatives in regex order at the current position:
a match needs the literal alternative as a prefix, a non-word character (or
the string edge) before it and after it. -/
def matchStopword (prevIsWord : Bool) (t : List Char) : Option ℕ :=
  (stopwordAlternatives.find?
    (fun a => !prevIsWord && a.isPrefixOf t && !boundaryBlockedAfter a t)).map List.length

/-- `str.replace_all(r"\b(edition|...)\b", "")`: scan left to right, deleting
each matched alternative; scanning resumes after the match, whose last
character (always a word character here) becomes the preceding character for
the next boundary test. -/
def removeStopwordsAux (prevIsWord : Bool) : ℕ → List Char → List Char
  | _, [] => []
  | 0, _ :: _ => []
  | fuel + 1, c :: rest =>
    match matchStopword prevIsWord (c :: rest) with
    | some n => removeStopwordsAux true fuel ((c :: rest).drop n)
    | none => c :: removeStopwordsAux (isWordChar c) fuel rest

/-- ASCII whitespace (the regex class `\s` on these inputs). -/
def isWhitespaceChar (c : Char) : Bool :=
  decide (c = ' ') || decide (c = '\t') || decide (c = '\n') || decide (c = '\r')
    || decide (c = '\x0b') || decide (c = '\x0c')

/-- `str.replace_all(r"[^a-z0-9\s]", " ")` on one character. -/
def keepAlnumSpace (c : Char) : Char :=
  if (decide ('a' ≤ c) && decide (c ≤ 'z')) || isAsciiDigit c || isWhitespaceChar c
  then c else ' '

/-- `str.replace_all(r"\s+", " ")`: collapse whitespace runs to one space. -/
def collapseWsAux (prevWs : Bool) : List Char → List Char
  | [] => []
  | c :: rest =>
    if isWhitespaceChar c then
      if prevWs then collapseWsAux true rest else ' ' :: collapseWsAux true rest
    else c :: collapseWsAux false rest

/-- `str.strip_chars()`: trim leading and trailing whitespace. -/
def trimWs (cs : List Char) : List Char :=
  ((cs.dropWhile isWhitespaceChar).reverse.dropWhile isWhitespaceChar).reverse

def splitOnSpaceAux (cur : List Char) : List Char → List (List Char)
  | [] => [cur.reverse]
  | c :: rest =>
    if c = ' ' then cur.reverse :: splitOnSpaceAux [] rest
    else splitOnSpaceAux (c :: cur) rest

/-- `str.split(" ")`. -/
def splitOnSpace (cs : List Char) : List (List Char) := splitOnSpaceAux [] cs

/-- Lexicographic (codepoint, equivalently UTF-8 byte) order on tokens. -/
def charListLe : List Char → List Char → Bool
  | [], _ => true
  | _ :: _, [] => false
  | a :: as, b :: bs => if a = b then charListLe as bs else decide (a < b)

def insertSortedTok (x : List Char) : List (List Char) → List (List Char)
  | [] => [x]
  | y :: ys => if charListLe x y then x :: y :: ys else y :: insertSortedTok x ys

/-- `list.sort()` on the token list. -/
def sortTokens : List (List Char) → List (List Char)
  | [] => []
  | x :: xs => insertSortedTok x (sortTokens xs)

/-- `list.join(" ")`. -/
def joinSpace : List (List Char) → List Char
  | [] => []
  | [t] => t
  | t :: ts => t ++ ' ' :: joinSpace ts

/-- The whole fingerprint expression chain of `generate_fingerprints`,
as a function of `raw_name`. -/
def fingerprintFn (synonyms : List (String × String)) (name : String) : String :=
  let s1 := name.data.map toLowerLatin
  let s2 := applySynonyms synonyms s1
  let s3 := removeStopwordsAux false s2.length s2
  let s4 := s3.map keepAlnumSpace
  let s5 := collapseWsAux false s4
  let s6 := trimWs s5
  String.mk (joinSpace (sortTokens (splitOnSpace s6)))

def generate_fingerprints (synonyms : List (String × String)) (rows : List NormRow) :
    List FpRow :=
  rows.map (fun r => { toNormRow := r, fingerprint := fingerprintFn synonyms r.raw_name })

/-! ### Anomaly Filter (`filter_anomalies`) -/

/-- `pl.col("price_final").mean().over("fingerprint")`: the mean of
`price_final` over all rows of the frame sharing the fingerprint, nulls
skipped; null when every price in the group is null. -/
def colMeanOverFingerprint (rows : List FpRow) (fp : String) : Option ℚ :=
  let ps := rows.filterMap (fun r => if r.fingerprint = fp then r.price_final else none)
  match ps with
  | [] => none
  | _ :: _ => some (ps.sum / ps.length)

/-- The filter predicate of `filter_anomalies`, given the row's `group_mean`
value: a null `price_final` (or null mean) makes every comparison null, and
polars `filter` drops rows whose predicate is not true. -/
def survivesB (config : PipelineConfig) (groupMean : Option ℚ) (r : FpRow) : Bool :=
  match r.price_final, groupMean with
  | some p, some m =>
    decide (config.min_price_eur ≤ p) && decide (p ≤ m * config.max_price_multiplier)
      && decide (1 < r.fingerprint.length)
  | _, _ => false

def filter_anomalies (config : PipelineConfig) (rows : List FpRow) : List FpRow :=
  rows.filter (fun r => survivesB config (colMeanOverFingerprint rows r.fingerprint) r)

/-! ### Aggregator (`aggregate_products`) -/

structure AggregateRecord where
  display_title : String
  avg_price : Option ℚ
  occurrence_count : ℕ
deriving DecidableEq, Repr

/-- Key order of `sort_by(len_chars, descending=True)`: greater or equal
character length. -/
def lenGe (a b : String) : Prop := b.length ≤ a.length

instance : DecidableRel lenGe := fun _ _ => Nat.decLe _ _
instance : IsTotal String lenGe := ⟨fun a b => Nat.le_total b.length a.length⟩
instance : IsTrans String lenGe := ⟨fun _ _ _ h1 h2 => Nat.le_trans h2 h1⟩

/-- The aggregation expressions of `aggregate_products` on one fingerprint
group (rows in input order).  The source calls `sort_by` with its default
`maintain_order=False`, under which polars leaves the relative order of
length-tied names unspecified; this model determinizes that choice with a
stable insertion sort, so of the display title only order-insensitive
consequences (a raw name of maximal length; singleton groups) reflect
guarantees of the program. -/
def aggRecord (g : List FpRow) : AggregateRecord :=
  { display_title := (List.insertionSort lenGe (g.map (fun r => r.raw_name))).headD ""
    avg_price :=
      match g.filterMap (fun r => r.price_final) with
      | [] => none
      | p :: ps => some (round2 (((p :: ps).sum : ℚ) / (p :: ps).length))
    occurrence_count := g.length }

/-- Distinct keys in first-occurrence order. -/
def uniqueKeysAux (seen : List String) : List String → List String
  | [] => []
  | k :: ks => if k ∈ seen then uniqueKeysAux seen ks else k :: uniqueKeysAux (k :: seen) ks

/-- `group_by("fingerprint")`: one group per distinct fingerprint, members in
frame order; groups listed in first-occurrence order. -/
def groupsOf (rows : List FpRow) : List (String × List FpRow) :=
  (uniqueKeysAux [] (rows.map (fun r => r.fingerprint))).map
    (fun fp => (fp, rows.filter (fun r => decide (r.fingerprint = fp))))

/-- Key order of `.sort("occurrence_count", descending=True)`. -/
def countGe (a b : AggregateRecord) : Prop := b.occurrence_count ≤ a.occurrence_count

instance : DecidableRel countGe := fun _ _ => Nat.decLe _ _
instance : IsTotal AggregateRecord countGe := ⟨fun _ _ => Nat.le_total _ _⟩
instance : IsTrans AggregateRecord countGe := ⟨fun _ _ _ h1 h2 => Nat.le_trans h2 h1⟩

def aggregate_products (rows : List FpRow) : List AggregateRecord :=
  List.insertionSort countGe ((groupsOf rows).map (fun g => aggRecord g.2))

/-! ### Pipeline driver (`main`) -/

/-- The full stage chain `main` builds with `.pipe`. -/
def pipelineRun (config : PipelineConfig) (rows : List RawRow) : List AggregateRecord :=
  aggregate_products
    (filter_anomalies config
      (generate_fingerprints config.synonyms (normalize_pricing config rows)))

/-- `load_lazy_data`: the filesystem is a map from paths to row lists; a
missing path raises `FileNotFoundError` before producing any row. -/
def load_lazy_data (fs : String → Option (List RawRow)) (source : String) :
    Except String (List RawRow) :=
  match fs source with
  | none => Except.error ("Input file not found: " ++ source)
  | some rows => Except.ok rows

/-- `main`: on any exception the run logs and exits with status 1, writing
nothing; on success it writes the aggregate records and exits with 0. -/
def mainRun (fs : String → Option (List RawRow)) (config : PipelineConfig) :
    ℕ × Option (List AggregateRecord) :=
  match load_lazy_data fs config.input_path with
  | Except.error _ => (1, none)
  | Except.ok rows => (0, some (pipelineRun config rows))

/-! ### Specification-side definitions

These follow the wording of the specification (not the source) and are
compared against the source-derived definitions in the theorems. -/

/-- Spec wording (§3, C3): the unweighted arithmetic mean of `price_final`
over all pre-filter rows of the fingerprint group that have a non-null
`price_final`; rows with null `price_final` are excluded from the mean. -/
def unweightedMeanSpec (rows : List FpRow) (fp : String) : Option ℚ :=
  let g := rows.filter (fun r => decide (r.fingerprint = fp) && !r.price_final.isNone)
  if g.isEmpty then none
  else some ((g.map (fun r => r.price_final.getD 0)).sum / g.length)

/-- Spec wording (§4.3, C5): synonym substitutions applied sequentially in
the order supplied, each substitution operating on the text already
rewritten by the earlier ones. -/
def sequentialSubstSpec (synonyms : List (String × String)) (s : List Char) : List Char :=
  synonyms.foldl (fun t kv => replaceManyAux [(kv.1.data, kv.2.data)] t.length t) s

/-- Spec wording (C6): the first name of greatest character length —
`find?` returns the first element whose length no other element exceeds. -/
def firstLongestSpec (names : List String) : Option String :=
  names.find? (fun n => names.all (fun m => decide (m.length ≤ n.length)))

def digitChar (n : ℕ) : Char := Char.ofNat (48 + n)

def natDigitsAux : ℕ → ℕ → List Char
  | 0, _ => []
  | fuel + 1, n => if n = 0 then [] else natDigitsAux fuel (n / 10) ++ [digitChar (n % 10)]

/-- Decimal digits of a natural number, most significant first. -/
def natDigits (n : ℕ) : List Char := if n = 0 then ['0'] else natDigitsAux n n

/-- Modelled from the spec (§6): `avg_price` is written to the output file
with exactly 2 decimal places.  The writing side lives in `sink_csv`, outside
the repository's own code. -/
def formatCents (cents : ℕ) : List Char :=
  natDigits (cents / 100) ++ '.' :: [digitChar (cents % 100 / 10), digitChar (cents % 10)]

def formatPrice (q : ℚ) : String := String.mk (formatCents (q * 100).num.toNat)

/-- Modelled from the spec (§8, C8): the pipeline's own output re-fed as
input — each output record becomes one raw row whose `raw_name` is the
record's `display_title` and whose `raw_price` is its formatted `avg_price`
(the output file carries no id, shop or date; the spec treats the records as
"already-fingerprinted, single-occurrence input"). -/
def reinputOf (recs : List AggregateRecord) : List RawRow :=
  recs.map (fun rec =>
    { id := 0, raw_name := rec.display_title,
      raw_price := match rec.avg_price with | some a => formatPrice a | none => "",
      shop := "", date := "" })

/-- Does `k` occur as a contiguous substring of `s`? -/
def occursIn (k s : List Char) : Bool :=
  s.tails.any (fun t => k.isPrefixOf t)

/-- First element of maximal length (earliest on ties); mirrors taking the
head of the stable descending sort by length. -/
def pickFirstMax : List String → Option String
  | [] => none
  | x :: xs =>
    match pickFirstMax xs with
    | none => some x
    | some y => if y.length ≤ x.length then some x else some y

/-- A config with the source's default quality gates and a caller-chosen
rate and synonym list. -/
def cfgStd (rate : ℚ) (synonyms : List (String × String)) : PipelineConfig :=
  { input_path := "catalog.csv", output_path := "clean.csv",
    usd_to_eur_rate := rate, synonyms := synonyms }

/-- The default config used in the concrete evaluations: rate 1.10 as in the
tests, everything else at its default. -/
def cfgDefault : PipelineConfig :=
  { input_path := "catalog.csv", output_path := "clean.csv", usd_to_eur_rate := 11 / 10 }

/-! ## Theorems -/

set_option maxRecDepth 8192
set_option maxHeartbeats 4000000

unseal Rat.mul Rat.add Rat.inv Rat.sub

/-- C1: with `usd_to_eur_rate = 1.10` and the default
`price_scale_threshold = 10000`, the Price Normalizer maps the four raw
prices `"$110.00"`, `"197200"`, `"€ 50,00"`, `"invalid"` to `price_final`
values `100.0`, `1972.0`, `50.0` and null respectively: currency stripping,
comma-as-decimal, strict-greater-than scale correction before USD
conversion, 2-decimal rounding, and null on parse failure. -/
theorem C1_normalizer_end_to_end :
    (normalize_pricing cfgDefault
        [⟨1, "r1", "$110.00", "shopA", "2024-01-01"⟩,
         ⟨2, "r2", "197200", "shopA", "2024-01-01"⟩,
         ⟨3, "r3", "€ 50,00", "shopA", "2024-01-01"⟩,
         ⟨4, "r4", "invalid", "shopA", "2024-01-01"⟩]).map (fun r => r.price_final)
      = [some 100, some 1972, some 50, none] := by
  decide

/-- C4: evaluation of the Fingerprint Generator at the repository's own test
inputs.  Because the stopword pattern in `pipeline.py` contains the mojibake
`limitÃ©e` (bytes C3 83 C2 A9) instead of `limitée`, the word survives
stopword removal and its accented character becomes a stray token, so
`"Sony PS5 Edition Limitée"` maps to `"5 e limit playstation sony"`, not to
the `"5 playstation sony"` that the claim (and the repository's own test)
require, and the two names no longer share a fingerprint. -/
theorem C4_fingerprint_mojibake_eval :
    (generate_fingerprints [("ps5", "playstation 5")]
        [{ toRawRow := ⟨1, "Sony PS5 Edition Limitée", "", "", ""⟩,
           is_usd := false, raw_float := none, corrected_float := none, price_final := none },
         { toRawRow := ⟨2, "Promo Sony PlayStation 5", "", "", ""⟩,
           is_usd := false, raw_float := none, corrected_float := none, price_final := none }]).map
      (fun r => r.fingerprint)
      = ["5 e limit playstation sony", "5 playstation sony"] ∧
    fingerprintFn [("ps5", "playstation 5")] "Sony PS5 Edition Limitée" ≠
      fingerprintFn [("ps5", "playstation 5")] "Promo Sony PlayStation 5" ∧
    fingerprintFn [("ps5", "playstation 5")] "Sony PS5 Edition Limitée" ≠
      "5 playstation sony" := by
  refine ⟨by decide, by decide, by decide⟩

/-- C5 (counterexample): the substitution step of the Fingerprint Generator
is `str.replace_many`, a single simultaneous pass — with the ordered
synonyms `a → b, b → c` the text `"a"` becomes `"b"`, whereas the claimed
sequential application (each rule reading the output of the earlier ones)
would give `"c"`. -/
theorem C5_sequential_substitution_counterexample :
    applySynonyms [("a", "b"), ("b", "c")] "a".data = "b".data ∧
    sequentialSubstSpec [("a", "b"), ("b", "c")] "a".data = "c".data ∧
    applySynonyms [("a", "b"), ("b", "c")] "a".data ≠
      sequentialSubstSpec [("a", "b"), ("b", "c")] "a".data := by
  refine ⟨by decide, by decide, by decide⟩

/-! Helper lemmas for the Anomaly Filter claims. -/

theorem filterMap_price_eq (rows : List FpRow) (fp : String) :
    rows.filterMap (fun r => if r.fingerprint = fp then r.price_final else none)
      = (rows.filter (fun r => decide (r.fingerprint = fp) && !r.price_final.isNone)).map
          (fun r => r.price_final.getD 0) := by
  induction rows with
  | nil => rfl
  | cons r rs ih =>
    by_cases hfp : r.fingerprint = fp
    · cases hp : r.price_final with
      | none => simp [List.filterMap_cons, List.filter_cons, hfp, hp, ih]
      | some p => simp [List.filterMap_cons, List.filter_cons, hfp, hp, ih]
    · simp [List.filterMap_cons, List.filter_cons, hfp, ih]

theorem colMean_eq_unweightedMeanSpec (rows : List FpRow) (fp : String) :
    colMeanOverFingerprint rows fp = unweightedMeanSpec rows fp := by
  unfold colMeanOverFingerprint unweightedMeanSpec
  rw [filterMap_price_eq]
  cases hg : rows.filter (fun r => decide (r.fingerprint = fp) && !r.price_final.isNone) with
  | nil => simp
  | cons a l => simp

/-- C3: the statistic the Anomaly Filter tests every row against is the
unweighted arithmetic mean of `price_final` over all pre-filter rows of the
row's fingerprint group that have a non-null `price_final` — computed once
from the unfiltered input, never from the surviving rows. -/
theorem C3_filter_tests_prefilter_mean (config : PipelineConfig) (rows : List FpRow) :
    (∀ fp, colMeanOverFingerprint rows fp = unweightedMeanSpec rows fp) ∧
    filter_anomalies config rows =
      rows.filter (fun r => survivesB config (unweightedMeanSpec rows r.fingerprint) r) := by
  refine ⟨fun fp => colMean_eq_unweightedMeanSpec rows fp, ?_⟩
  unfold filter_anomalies
  simp only [colMean_eq_unweightedMeanSpec]

theorem survivesB_eq_true_iff (config : PipelineConfig) (m : Option ℚ) (r : FpRow) :
    survivesB config m r = true ↔
      ∃ p gm, r.price_final = some p ∧ m = some gm ∧ config.min_price_eur ≤ p ∧
        p ≤ gm * config.max_price_multiplier ∧ 1 < r.fingerprint.length := by
  unfold survivesB
  cases hp : r.price_final with
  | none => simp
  | some p =>
    cases hm : m with
    | none => simp
    | some gm => simp [and_assoc]

theorem mem_groupsOf (l : List FpRow) (g : String × List FpRow) (hg : g ∈ groupsOf l) :
    g.2 = l.filter (fun r => decide (r.fingerprint = g.1)) := by
  unfold groupsOf at hg
  obtain ⟨fp, _, rfl⟩ := List.mem_map.mp hg
  rfl

/-- C2: a row survives the Anomaly Filter iff its `price_final` is non-null,
at least `min_price_eur`, at most the pre-filter group mean times
`max_price_multiplier`, and its fingerprint is longer than one character;
consequently a row with null `price_final` never appears in any output
group. -/
theorem C2_filter_membership (config : PipelineConfig) (rows : List FpRow) :
    (∀ r, r ∈ filter_anomalies config rows ↔
        r ∈ rows ∧ ∃ p, r.price_final = some p ∧ config.min_price_eur ≤ p ∧
          (∃ m, unweightedMeanSpec rows r.fingerprint = some m ∧
            p ≤ m * config.max_price_multiplier) ∧
          1 < r.fingerprint.length) ∧
    (∀ r ∈ rows, r.price_final = none →
      ∀ g ∈ groupsOf (filter_anomalies config rows), r ∉ g.2) := by
  have hmain : ∀ r, r ∈ filter_anomalies config rows ↔
      r ∈ rows ∧ ∃ p, r.price_final = some p ∧ config.min_price_eur ≤ p ∧
        (∃ m, unweightedMeanSpec rows r.fingerprint = some m ∧
          p ≤ m * config.max_price_multiplier) ∧
        1 < r.fingerprint.length := by
    intro r
    unfold filter_anomalies
    rw [List.mem_filter, survivesB_eq_true_iff, colMean_eq_unweightedMeanSpec]
    constructor
    · rintro ⟨hmem, p, gm, hp, hm, hmin, hle, hlen⟩
      exact ⟨hmem, p, hp, hmin, ⟨gm, hm, hle⟩, hlen⟩
    · rintro ⟨hmem, p, hp, hmin, ⟨gm, hm, hle⟩, hlen⟩
      exact ⟨hmem, p, gm, hp, hm, hmin, hle, hlen⟩
  refine ⟨hmain, ?_⟩
  intro r _ hnone g hg hmem
  rw [mem_groupsOf _ _ hg] at hmem
  have hr := (hmain r).mp (List.mem_of_mem_filter hmem)
  obtain ⟨-, p, hp, -⟩ := hr
  rw [hnone] at hp
  cases hp

/-- C2 witness: a two-euro-row group where the survival test holds. -/
theorem C2_filter_membership_witness :
    (⟨⟨⟨1, "ab", "50", "s", "d"⟩, false, some 50, some 50, some 50⟩, "ab"⟩ : FpRow) ∈
      filter_anomalies cfgDefault
        [⟨⟨⟨1, "ab", "50", "s", "d"⟩, false, some 50, some 50, some 50⟩, "ab"⟩] :=
  ((C2_filter_membership cfgDefault
      [⟨⟨⟨1, "ab", "50", "s", "d"⟩, false, some 50, some 50, some 50⟩, "ab"⟩]).1 _).mpr
    ⟨by decide, 50, rfl, by decide,
      ⟨50, by decide, by decide⟩, by decide⟩

/-! Helper lemmas for the Aggregator claims. -/

theorem pickFirstMax_ne_none (x : String) (xs : List String) :
    pickFirstMax (x :: xs) ≠ none := by
  unfold pickFirstMax
  cases pickFirstMax xs with
  | none => simp
  | some y => by_cases h : y.length ≤ x.length <;> simp [h]

theorem head?_insertionSort_lenGe (names : List String) :
    (List.insertionSort lenGe names).head? = pickFirstMax names := by
  induction names with
  | nil => rfl
  | cons x xs ih =>
    show (List.orderedInsert lenGe x (List.insertionSort lenGe xs)).head? = pickFirstMax (x :: xs)
    cases hs : List.insertionSort lenGe xs with
    | nil =>
      have hpm : pickFirstMax xs = none := by rw [← ih, hs]; rfl
      simp [List.orderedInsert, pickFirstMax, hpm]
    | cons b l =>
      have hpm : pickFirstMax xs = some b := by rw [← ih, hs]; rfl
      by_cases hxb : lenGe x b
      · have hxb2 : b.length ≤ x.length := hxb
        simp [List.orderedInsert, pickFirstMax, hpm, hxb, hxb2]
      · have hxb2 : ¬ b.length ≤ x.length := hxb
        simp [List.orderedInsert, pickFirstMax, hpm, hxb, hxb2]

theorem pickFirstMax_decomp (names : List String) (t : String)
    (h : pickFirstMax names = some t) :
    ∃ pre post, names = pre ++ t :: post ∧ (∀ m ∈ pre, m.length < t.length) ∧
      ∀ m ∈ names, m.length ≤ t.length := by
  induction names generalizing t with
  | nil => cases h
  | cons x xs ih =>
    unfold pickFirstMax at h
    cases hpm : pickFirstMax xs with
    | none =>
      rw [hpm] at h
      have hx : t = x := (Option.some.inj h).symm
      have hxs : xs = [] := by
        cases xs with
        | nil => rfl
        | cons a as => exact absurd hpm (pickFirstMax_ne_none a as)
      subst hx; subst hxs
      exact ⟨[], [], rfl, by simp, by simp⟩
    | some y =>
      rw [hpm] at h
      have h' : (if y.length ≤ x.length then some x else some y) = some t := h
      obtain ⟨pre, post, hdec, hpre, hall⟩ := ih y hpm
      by_cases hyx : y.length ≤ x.length
      · rw [if_pos hyx] at h'
        have hx : t = x := (Option.some.inj h').symm
        subst hx
        refine ⟨[], xs, rfl, by simp, ?_⟩
        intro m hm
        rcases List.mem_cons.mp hm with h1 | h2
        · simp [h1]
        · exact Nat.le_trans (hall m h2) hyx
      · rw [if_neg hyx] at h'
        have hy : t = y := (Option.some.inj h').symm
        subst hy
        refine ⟨x :: pre, post, by rw [hdec]; rfl, ?_, ?_⟩
        · intro m hm
          rcases List.mem_cons.mp hm with h1 | h2
          · rw [h1]; exact Nat.lt_of_not_le hyx
          · exact hpre m h2
        · intro m hm
          rcases List.mem_cons.mp hm with h1 | h2
          · rw [h1]; exact Nat.le_of_lt (Nat.lt_of_not_le hyx)
          · exact hall m h2

theorem uniqueKeysAux_subset (l : List String) :
    ∀ seen, ∀ x ∈ uniqueKeysAux seen l, x ∈ l := by
  induction l with
  | nil => intro seen x hx; cases hx
  | cons k ks ih =>
    intro seen x hx
    unfold uniqueKeysAux at hx
    by_cases hk : k ∈ seen
    · rw [if_pos hk] at hx
      exact List.mem_cons_of_mem _ (ih seen x hx)
    · rw [if_neg hk] at hx
      rcases List.mem_cons.mp hx with h1 | h2
      · simp [h1]
      · exact List.mem_cons_of_mem _ (ih _ x h2)

theorem groupsOf_nonempty (l : List FpRow) (fp : String) (g : List FpRow)
    (hg : (fp, g) ∈ groupsOf l) : g ≠ [] := by
  unfold groupsOf at hg
  obtain ⟨fp', hfp', heq⟩ := List.mem_map.mp hg
  have h1 : fp' = fp := congrArg Prod.fst heq
  subst h1
  have h2 : g = l.filter (fun r => decide (r.fingerprint = fp')) :=
    (congrArg Prod.snd heq).symm
  have h3 : fp' ∈ l.map (fun r => r.fingerprint) := uniqueKeysAux_subset _ [] fp' hfp'
  obtain ⟨r, hr, hrfp⟩ := List.mem_map.mp h3
  have h4 : r ∈ g := by
    rw [h2]
    exact List.mem_filter.mpr ⟨hr, by simp [hrfp]⟩
  intro h0
  rw [h0] at h4
  cases h4

/-! Helper lemmas for the single-pass substitution claim. -/

theorem findBestMatch_append_dead (subs : List (List Char × List Char))
    (k v : List Char) (t : List Char) (hk : k.isPrefixOf t = false) :
    findBestMatch (subs ++ [(k, v)]) t = findBestMatch subs t := by
  unfold findBestMatch
  rw [List.foldl_append, List.foldl_cons, List.foldl_nil]
  simp [hk]

theorem replaceManyAux_dead (k v : List Char) (s : List Char)
    (hocc : occursIn k s = false) (subs : List (List Char × List Char)) :
    ∀ fuel (t : List Char), t <:+ s →
      replaceManyAux (subs ++ [(k, v)]) fuel t = replaceManyAux subs fuel t := by
  have hnp : ∀ t : List Char, t <:+ s → k.isPrefixOf t = false := by
    intro t hts
    cases hp : k.isPrefixOf t with
    | false => rfl
    | true =>
      exfalso
      have htrue : occursIn k s = true := by
        unfold occursIn
        rw [List.any_eq_true]
        exact ⟨t, (List.mem_tails _ _).mpr hts, hp⟩
      rw [htrue] at hocc
      cases hocc
  intro fuel
  induction fuel with
  | zero =>
    intro t _
    cases t <;> rfl
  | succ fuel ih =>
    intro t hts
    cases t with
    | nil => rfl
    | cons c rest =>
      have hrest : rest <:+ s := (List.suffix_cons c rest).trans hts
      simp only [replaceManyAux]
      rw [findBestMatch_append_dead subs k v _ (hnp _ hts)]
      cases hfb : findBestMatch subs (c :: rest) with
      | none =>
        show c :: replaceManyAux (subs ++ [(k, v)]) fuel rest
            = c :: replaceManyAux subs fuel rest
        rw [ih rest hrest]
      | some kv =>
        show kv.2 ++ replaceManyAux (subs ++ [(k, v)]) fuel (List.drop (kv.1.length - 1) rest)
            = kv.2 ++ replaceManyAux subs fuel (List.drop (kv.1.length - 1) rest)
        rw [ih _ ((List.drop_suffix _ _).trans hrest)]

/-- C5 (amended): the substitution step is one simultaneous left-to-right
pass — a pattern that does not occur in the text never fires, even when it
occurs in the replacement text of an earlier rule, so the output of an
earlier rule is never rewritten by a later one. -/
theorem C5_amended_single_pass (k₁ v₁ k₂ v₂ : String) (s : List Char)
    (h : occursIn k₂.data s = false) :
    applySynonyms [(k₁, v₁), (k₂, v₂)] s = applySynonyms [(k₁, v₁)] s := by
  unfold applySynonyms
  have hmap : [(k₁, v₁), (k₂, v₂)].map (fun kv => (kv.1.data, kv.2.data))
      = [(k₁.data, v₁.data)] ++ [(k₂.data, v₂.data)] := rfl
  rw [hmap]
  exact replaceManyAux_dead k₂.data v₂.data s h [(k₁.data, v₁.data)] s.length s
    (List.suffix_refl s)

/-- C5 (amended) witness: `b` does not occur in `"a x"`, so the rule
`b → c` never fires there even though the rule `a → b` produces a `b`. -/
theorem C5_amended_single_pass_witness :
    occursIn "b".data "a x".data = false ∧
    applySynonyms [("a", "b"), ("b", "c")] "a x".data = applySynonyms [("a", "b")] "a x".data :=
  ⟨by decide, C5_amended_single_pass "a" "b" "b" "c" "a x".data (by decide)⟩

/-- C7: the Aggregator's output is ordered by `occurrence_count` descending —
any earlier emitted record has an occurrence count at least that of any later
one. -/
theorem C7_output_sorted_by_count_desc (rows : List FpRow) :
    List.Pairwise (fun a b : AggregateRecord => b.occurrence_count ≤ a.occurrence_count)
      (aggregate_products rows) :=
  List.sorted_insertionSort countGe _

/-- C9: if the filesystem has no entry at the configured input path, the run
fails with the input-not-found error before producing any row, and the
process exits with status 1 writing no output. -/
theorem C9_input_not_found (fs : String → Option (List RawRow)) (config : PipelineConfig)
    (h : fs config.input_path = none) :
    load_lazy_data fs config.input_path =
        Except.error ("Input file not found: " ++ config.input_path) ∧
      mainRun fs config = (1, none) := by
  constructor
  · simp [load_lazy_data, h]
  · simp [mainRun, load_lazy_data, h]

/-- C9 witness: a concrete filesystem with no entries and a concrete config. -/
theorem C9_input_not_found_witness :
    load_lazy_data (fun _ => none) cfgDefault.input_path =
        Except.error ("Input file not found: " ++ cfgDefault.input_path) ∧
      mainRun (fun _ => none) cfgDefault = (1, none) :=
  C9_input_not_found (fun _ => none) cfgDefault rfl

/-- C10: the Price Normalizer and the Fingerprint Generator only add
columns; the original `id`, `raw_name`, `raw_price`, `shop`, `date` fields
of every row pass through both stages unchanged (and the Fingerprint
Generator also leaves the Normalizer's added columns unchanged). -/
theorem C10_stages_preserve_existing_columns (config : PipelineConfig)
    (synonyms : List (String × String)) (rows : List RawRow) (erows : List NormRow) :
    (normalize_pricing config rows).map (fun x => x.toRawRow) = rows ∧
    (generate_fingerprints synonyms erows).map (fun x => x.toNormRow) = erows := by
  constructor
  · induction rows with
    | nil => rfl
    | cons r rs ih =>
      simp only [normalize_pricing, List.map_cons] at ih ⊢
      exact congrArg (List.cons r) ih
  · induction erows with
    | nil => rfl
    | cons r rs ih =>
      simp only [generate_fingerprints, List.map_cons] at ih ⊢
      exact congrArg (List.cons r) ih

/-! Helper lemmas on rounding and means, for the re-run claim. -/

theorem roundHalfAwayInt_intCast (z : ℤ) : roundHalfAwayInt (z : ℚ) = z := by
  unfold roundHalfAwayInt
  by_cases hz : 0 ≤ (z : ℚ)
  · rw [if_pos hz, Int.floor_int_add]
    norm_num
  · rw [if_neg hz]
    have : -(z : ℚ) = ((-z : ℤ) : ℚ) := by push_cast; ring
    rw [this, Int.floor_int_add]
    norm_num

theorem round2_cents (n : ℤ) : round2 ((n : ℚ) / 100) = (n : ℚ) / 100 := by
  unfold round2
  have h : ((n : ℚ) / 100) * 100 = (n : ℚ) := by
    field_simp
  rw [h, roundHalfAwayInt_intCast]

theorem roundHalfAwayInt_mono_nonneg (x y : ℚ) (hx : 0 ≤ x) (h : x ≤ y) :
    roundHalfAwayInt x ≤ roundHalfAwayInt y := by
  unfold roundHalfAwayInt
  rw [if_pos hx, if_pos (le_trans hx h)]
  exact Int.floor_mono (by linarith)

theorem round2_mono_nonneg (x y : ℚ) (hx : 0 ≤ x) (h : x ≤ y) : round2 x ≤ round2 y := by
  unfold round2
  have h1 : roundHalfAwayInt (x * 100) ≤ roundHalfAwayInt (y * 100) :=
    roundHalfAwayInt_mono_nonneg (x * 100) (y * 100) (by positivity) (by linarith)
  have h2 : ((roundHalfAwayInt (x * 100) : ℤ) : ℚ) ≤ ((roundHalfAwayInt (y * 100) : ℤ) : ℚ) :=
    Int.cast_le.mpr h1
  linarith

theorem round2_eq_five : round2 (5 : ℚ) = 5 := by
  have h5 : round2 (((500 : ℤ) : ℚ) / 100) = ((500 : ℤ) : ℚ) / 100 := round2_cents 500
  have h5' : (((500 : ℤ) : ℚ) / 100) = 5 := by norm_num
  rw [← h5']
  exact h5

theorem round2_ge_five (m : ℚ) (h : 5 ≤ m) : 5 ≤ round2 m := by
  calc (5 : ℚ) = round2 5 := round2_eq_five.symm
    _ ≤ round2 m := round2_mono_nonneg 5 m (by norm_num) h

theorem mean_ge (c : ℚ) (l : List ℚ) (hne : l ≠ []) (h : ∀ x ∈ l, c ≤ x) :
    c ≤ l.sum / l.length := by
  have hlen : 0 < (l.length : ℚ) := by
    have hp : 0 < l.length := List.length_pos.mpr hne
    exact_mod_cast hp
  rw [le_div_iff₀ hlen]
  have hsum : ∀ l' : List ℚ, (∀ x ∈ l', c ≤ x) → c * l'.length ≤ l'.sum := by
    intro l' hl'
    induction l' with
    | nil => simp
    | cons x xs ih =>
      simp only [List.sum_cons, List.length_cons]
      have hx : c ≤ x := hl' x (by simp)
      have ih' := ih (fun y hy => hl' y (by simp [hy]))
      push_cast
      nlinarith [ih']
  exact hsum l h

/-! Helper lemmas: the 2-decimal output format parses back to itself. -/

theorem digitVal_digitChar : ∀ k, k < 10 → digitVal (digitChar k) = k := by decide

theorem isAsciiDigit_digitChar : ∀ k, k < 10 → isAsciiDigit (digitChar k) = true := by decide

theorem digit_not_dot (c : Char) (h : isAsciiDigit c = true) : decide (c = '.') = false := by
  cases hd : decide (c = '.') with
  | false => rfl
  | true =>
    rw [of_decide_eq_true hd] at h
    cases h

theorem natDigitsAux_all (fuel : ℕ) :
    ∀ n, ∀ c ∈ natDigitsAux fuel n, isAsciiDigit c = true := by
  induction fuel with
  | zero => intro n c hc; cases hc
  | succ fuel ih =>
    intro n c hc
    unfold natDigitsAux at hc
    by_cases hn : n = 0
    · rw [if_pos hn] at hc; cases hc
    · rw [if_neg hn] at hc
      rcases List.mem_append.mp hc with h1 | h2
      · exact ih (n / 10) c h1
      · rw [List.mem_singleton.mp h2]
        exact isAsciiDigit_digitChar _ (Nat.mod_lt n (by norm_num))

theorem digitsVal_append_singleton (xs : List Char) (c : Char) :
    digitsVal (xs ++ [c]) = 10 * digitsVal xs + digitVal c := by
  unfold digitsVal
  rw [List.foldl_append, List.foldl_cons, List.foldl_nil]

theorem digitsVal_natDigitsAux (fuel : ℕ) :
    ∀ n, n ≤ fuel → digitsVal (natDigitsAux fuel n) = n := by
  induction fuel with
  | zero =>
    intro n h
    have h0 : n = 0 := Nat.le_zero.mp h
    subst h0
    rfl
  | succ fuel ih =>
    intro n h
    unfold natDigitsAux
    by_cases hn : n = 0
    · simp [hn, digitsVal]
    · rw [if_neg hn, digitsVal_append_singleton]
      have hdiv : n / 10 ≤ fuel := by
        have h1 : n / 10 < n := Nat.div_lt_self (Nat.pos_of_ne_zero hn) (by norm_num)
        omega
      rw [ih (n / 10) hdiv, digitVal_digitChar _ (Nat.mod_lt n (by norm_num))]
      exact Nat.div_add_mod n 10

theorem digitsVal_natDigits (n : ℕ) : digitsVal (natDigits n) = n := by
  unfold natDigits
  by_cases hn : n = 0
  · rw [if_pos hn, hn]; rfl
  · rw [if_neg hn]; exact digitsVal_natDigitsAux n n le_rfl

theorem natDigits_all (n : ℕ) : ∀ c ∈ natDigits n, isAsciiDigit c = true := by
  unfold natDigits
  by_cases hn : n = 0
  · rw [if_pos hn]
    intro c hc
    rw [List.mem_singleton.mp hc]
    decide
  · rw [if_neg hn]; exact natDigitsAux_all n n

theorem natDigits_ne_nil (n : ℕ) : natDigits n ≠ [] := by
  unfold natDigits
  by_cases hn : n = 0
  · rw [if_pos hn]; simp
  · rw [if_neg hn]
    obtain ⟨m, rfl⟩ := Nat.exists_eq_succ_of_ne_zero hn
    unfold natDigitsAux
    rw [if_neg hn]
    simp

theorem formatCents_chars (n : ℕ) :
    ∀ c ∈ formatCents n, isAsciiDigit c = true ∨ c = '.' := by
  unfold formatCents
  intro c hc
  rcases List.mem_append.mp hc with h1 | h2
  · exact Or.inl (natDigits_all _ c h1)
  · rcases List.mem_cons.mp h2 with h3 | h4
    · exact Or.inr h3
    · rcases List.mem_cons.mp h4 with h5 | h6
      · refine Or.inl ?_
        rw [h5]
        exact isAsciiDigit_digitChar _ (by omega)
      · refine Or.inl ?_
        rw [List.mem_singleton.mp h6]
        exact isAsciiDigit_digitChar _ (by omega)

theorem takeWhile_append_stop (p : Char → Bool) (xs : List Char)
    (hxs : ∀ c ∈ xs, p c = true) (y : Char) (hy : p y = false) (ys : List Char) :
    (xs ++ y :: ys).takeWhile p = xs ∧ (xs ++ y :: ys).dropWhile p = y :: ys := by
  induction xs with
  | nil => simp [List.takeWhile_cons, List.dropWhile_cons, hy]
  | cons a xs ih =>
    have ha : p a = true := hxs a (by simp)
    have ih' := ih (fun c hc => hxs c (by simp [hc]))
    simp [List.takeWhile_cons, List.dropWhile_cons, ha, ih'.1, ih'.2]

theorem parseDecimal_formatCents (n : ℕ) :
    parseDecimal (formatCents n) = some ((n : ℚ) / 100) := by
  have hnd : ∀ c ∈ natDigits (n / 100), (!decide (c = '.')) = true := by
    intro c hc
    rw [digit_not_dot c (natDigits_all _ c hc)]
    rfl
  have hdot : (!decide ('.' = '.')) = false := by decide
  obtain ⟨htake, hdrop⟩ :=
    takeWhile_append_stop (fun c => !decide (c = '.')) (natDigits (n / 100)) hnd '.' hdot
      [digitChar (n % 100 / 10), digitChar (n % 10)]
  unfold parseDecimal formatCents
  rw [htake, hdrop]
  have hfrac : ([digitChar (n % 100 / 10), digitChar (n % 10)]).all
      (fun c => !decide (c = '.')) = true := by
    refine List.all_eq_true.mpr ?_
    intro c hc
    rcases List.mem_cons.mp hc with h1 | h2
    · rw [h1, digit_not_dot _ (isAsciiDigit_digitChar _ (by omega))]; rfl
    · rw [List.mem_singleton.mp h2, digit_not_dot _ (isAsciiDigit_digitChar _ (by omega))]
      rfl
  have hint : allDigits (natDigits (n / 100)) = true :=
    List.all_eq_true.mpr (natDigits_all (n / 100))
  have hfracd : allDigits [digitChar (n % 100 / 10), digitChar (n % 10)] = true := by
    refine List.all_eq_true.mpr ?_
    intro c hc
    rcases List.mem_cons.mp hc with h1 | h2
    · rw [h1]; exact isAsciiDigit_digitChar _ (by omega)
    · rw [List.mem_singleton.mp h2]; exact isAsciiDigit_digitChar _ (by omega)
  have hne : (natDigits (n / 100)).isEmpty = false := by
    cases he : natDigits (n / 100) with
    | nil => exact absurd he (natDigits_ne_nil _)
    | cons a l => rfl
  have hdv : digitsVal [digitChar (n % 100 / 10), digitChar (n % 10)] = n % 100 := by
    have e1 : digitVal (digitChar (n % 100 / 10)) = n % 100 / 10 :=
      digitVal_digitChar _ (by omega)
    have e2 : digitVal (digitChar (n % 10)) = n % 10 :=
      digitVal_digitChar _ (by omega)
    unfold digitsVal
    rw [List.foldl_cons, List.foldl_cons, List.foldl_nil, e1, e2]
    omega
  simp only [hfrac, hint, hfracd, hne, Bool.not_false, Bool.true_and, Bool.and_true,
    Bool.true_or, if_true, List.length_cons, List.length_nil, hdv, digitsVal_natDigits]
  have hsplit : (100 : ℚ) * ((n / 100 : ℕ) : ℚ) + ((n % 100 : ℕ) : ℚ) = (n : ℚ) := by
    exact_mod_cast congrArg (fun m : ℕ => (m : ℚ)) (Nat.div_add_mod n 100)
  have hgoal : ((n / 100 : ℕ) : ℚ) + ((n % 100 : ℕ) : ℚ) / 10 ^ (0 + 1 + 1) = (n : ℚ) / 100 := by
    have hpow : (10 : ℚ) ^ (0 + 1 + 1) = 100 := by norm_num
    rw [hpow]
    field_simp
    linarith [hsplit]
  rw [hgoal]

theorem round2_cents_nat (n : ℕ) : round2 ((n : ℚ) / 100) = (n : ℚ) / 100 := by
  have h := round2_cents (n : ℤ)
  push_cast at h ⊢
  exact h

theorem formatCents_no_dollar (n : ℕ) :
    containsDollar (String.mk (formatCents n)) = false := by
  unfold containsDollar
  cases hb : (String.mk (formatCents n)).data.any (fun c => decide (c = '$')) with
  | false => rfl
  | true =>
    exfalso
    obtain ⟨c, hc, hcd⟩ := List.any_eq_true.mp hb
    have hc' : c ∈ formatCents n := hc
    have hcc := formatCents_chars n c hc'
    rw [of_decide_eq_true hcd] at hcc
    rcases hcc with h | h
    · exact absurd h (by decide)
    · exact absurd h (by decide)

theorem stripNonNumeric_formatCents (n : ℕ) :
    stripNonNumeric (formatCents n) = formatCents n := by
  unfold stripNonNumeric
  refine List.filter_eq_self.mpr ?_
  intro c hc
  rcases formatCents_chars n c hc with h | h
  · unfold isKeptNumericChar
    rw [h]
    rfl
  · rw [h]
    decide

theorem replaceFirstComma_id (l : List Char) (h : ∀ c ∈ l, ¬ c = ',') :
    replaceFirstComma l = l := by
  induction l with
  | nil => rfl
  | cons c cs ih =>
    unfold replaceFirstComma
    rw [if_neg (h c (by simp))]
    rw [ih (fun x hx => h x (by simp [hx]))]

theorem replaceFirstComma_formatCents (n : ℕ) :
    replaceFirstComma (formatCents n) = formatCents n := by
  refine replaceFirstComma_id _ ?_
  intro c hc
  rcases formatCents_chars n c hc with h | h
  · intro hcc
    rw [hcc] at h
    exact absurd h (by decide)
  · rw [h]
    decide

theorem formatPrice_cents (n : ℕ) : formatPrice ((n : ℚ) / 100) = String.mk (formatCents n) := by
  unfold formatPrice
  have h1 : ((n : ℚ) / 100) * 100 = ((n : ℕ) : ℚ) := by field_simp
  rw [h1]
  norm_num

/-- Normalizing a re-fed output row: the formatted 2-decimal price parses
back to itself, is not USD, is not scale-corrected when at most the
threshold, and 2-decimal rounding fixes it. -/
theorem normalizeRow_format (config : PipelineConfig) (idv : Int) (name shop date : String)
    (n : ℕ) (hthresh : config.price_scale_threshold = 10000) (hle : ((n : ℚ) / 100) ≤ 10000) :
    normalizeRow config ⟨idv, name, String.mk (formatCents n), shop, date⟩
      = ⟨⟨idv, name, String.mk (formatCents n), shop, date⟩, false,
          some ((n : ℚ) / 100), some ((n : ℚ) / 100), some ((n : ℚ) / 100)⟩ := by
  have hparse : parseDecimal (replaceFirstComma (stripNonNumeric
      (String.mk (formatCents n)).data)) = some ((n : ℚ) / 100) := by
    show parseDecimal (replaceFirstComma (stripNonNumeric (formatCents n))) = _
    rw [stripNonNumeric_formatCents, replaceFirstComma_formatCents, parseDecimal_formatCents]
  simp only [normalizeRow, hparse, formatCents_no_dollar, Option.map_some']
  rw [hthresh]
  rw [if_neg (not_lt.mpr hle)]
  simp only [Bool.false_eq_true, if_false, round2_cents_nat]

/-! Helper lemmas: grouping with pairwise-distinct fingerprints. -/

theorem map_congr_mem {α β : Type} (l : List α) (f g : α → β)
    (h : ∀ a ∈ l, f a = g a) : l.map f = l.map g := by
  induction l with
  | nil => rfl
  | cons x xs ih =>
    rw [List.map_cons, List.map_cons, h x (by simp),
      ih (fun a ha => h a (by simp [ha]))]

theorem uniqueKeysAux_congr_seen (l : List String) :
    ∀ seen₁ seen₂, (∀ y, y ∈ seen₁ ↔ y ∈ seen₂) →
      uniqueKeysAux seen₁ l = uniqueKeysAux seen₂ l := by
  induction l with
  | nil => intro s1 s2 _; rfl
  | cons k ks ih =>
    intro s1 s2 hiff
    unfold uniqueKeysAux
    by_cases hk : k ∈ s1
    · rw [if_pos hk, if_pos ((hiff k).mp hk)]
      exact ih s1 s2 hiff
    · rw [if_neg hk, if_neg (fun hc => hk ((hiff k).mpr hc))]
      rw [ih (k :: s1) (k :: s2) (fun y => by simp [hiff y])]

theorem uniqueKeysAux_seen_irrel (l : List String) (x : String) (hx : x ∉ l) :
    ∀ seen, uniqueKeysAux (x :: seen) l = uniqueKeysAux seen l := by
  induction l with
  | nil => intro seen; rfl
  | cons k ks ih =>
    intro seen
    have hxk : ¬ x = k := fun h => hx (by rw [h]; simp)
    have hxks : x ∉ ks := fun h => hx (by simp [h])
    unfold uniqueKeysAux
    by_cases hk : k ∈ seen
    · rw [if_pos (by simp [hk]), if_pos hk]
      exact ih hxks seen
    · have hk' : k ∉ x :: seen := by
        intro hc
        rcases List.mem_cons.mp hc with h1 | h2
        · exact hxk h1.symm
        · exact hk h2
      rw [if_neg hk', if_neg hk]
      rw [uniqueKeysAux_congr_seen ks (k :: x :: seen) (x :: k :: seen) (fun y => by
        simp only [List.mem_cons]
        tauto)]
      rw [ih hxks (k :: seen)]

theorem uniqueKeysAux_nodup_id (l : List String) (h : l.Nodup) : uniqueKeysAux [] l = l := by
  induction l with
  | nil => rfl
  | cons k ks ih =>
    unfold uniqueKeysAux
    rw [if_neg (List.not_mem_nil k)]
    have hk : k ∉ ks := (List.nodup_cons.mp h).1
    rw [uniqueKeysAux_seen_irrel ks k hk []]
    rw [ih (List.nodup_cons.mp h).2]

theorem groupsOf_nodup (l : List FpRow) (hnd : (l.map (fun r => r.fingerprint)).Nodup) :
    groupsOf l = l.map (fun r => (r.fingerprint, [r])) := by
  unfold groupsOf
  rw [uniqueKeysAux_nodup_id _ hnd, List.map_map]
  refine map_congr_mem l _ _ ?_
  intro r hr
  show (r.fingerprint, l.filter (fun y => decide (y.fingerprint = r.fingerprint)))
      = (r.fingerprint, [r])
  have hfilter : ∀ l' : List FpRow, (l'.map (fun r => r.fingerprint)).Nodup → ∀ r' ∈ l',
      l'.filter (fun y => decide (y.fingerprint = r'.fingerprint)) = [r'] := by
    intro l'
    induction l' with
    | nil => intro _ r' hr'; cases hr'
    | cons y ys ih =>
      intro hnd' r' hr'
      have hhead : y.fingerprint ∉ ys.map (fun r => r.fingerprint) :=
        (List.nodup_cons.mp hnd').1
      rcases List.mem_cons.mp hr' with h1 | h2
      · subst h1
        rw [List.filter_cons, if_pos (by simp)]
        have hnil : ys.filter (fun y2 => decide (y2.fingerprint = r'.fingerprint)) = [] := by
          refine List.filter_eq_nil_iff.mpr ?_
          intro a ha hc
          exact hhead (List.mem_map.mpr ⟨a, ha, of_decide_eq_true hc⟩)
        rw [hnil]
      · have hne : ¬ y.fingerprint = r'.fingerprint := by
          intro hc
          exact hhead (by rw [hc]; exact List.mem_map.mpr ⟨r', h2, rfl⟩)
        rw [List.filter_cons, if_neg (by simp [hne])]
        exact ih (List.nodup_cons.mp hnd').2 r' h2
  rw [hfilter l hnd r hr]

theorem filterMap_price_self (l : List FpRow) (hnd : (l.map (fun r => r.fingerprint)).Nodup)
    (x : FpRow) (hx : x ∈ l) :
    l.filterMap (fun r => if r.fingerprint = x.fingerprint then r.price_final else none)
      = x.price_final.toList := by
  induction l with
  | nil => cases hx
  | cons y ys ih =>
    have hhead : y.fingerprint ∉ ys.map (fun r => r.fingerprint) := (List.nodup_cons.mp hnd).1
    rcases List.mem_cons.mp hx with h1 | h2
    · subst h1
      rw [List.filterMap_cons]
      have hnil : ys.filterMap
          (fun r => if r.fingerprint = x.fingerprint then r.price_final else none) = [] := by
        refine List.filterMap_eq_nil_iff.mpr ?_
        intro a ha
        rw [if_neg (fun hc => hhead (List.mem_map.mpr ⟨a, ha, hc⟩))]
      rw [if_pos rfl, hnil]
      cases x.price_final <;> rfl
    · have hne : ¬ y.fingerprint = x.fingerprint := by
        intro hc
        exact hhead (by rw [hc]; exact List.mem_map.mpr ⟨x, h2, rfl⟩)
      rw [List.filterMap_cons, if_neg hne]
      exact ih (List.nodup_cons.mp hnd).2 h2

theorem colMean_self (l : List FpRow) (hnd : (l.map (fun r => r.fingerprint)).Nodup)
    (x : FpRow) (hx : x ∈ l) :
    colMeanOverFingerprint l x.fingerprint = x.price_final := by
  unfold colMeanOverFingerprint
  rw [filterMap_price_self l hnd x hx]
  cases hp : x.price_final with
  | none => rfl
  | some p => simp

theorem insertionSort_countGe_const (l : List AggregateRecord)
    (h : ∀ x ∈ l, x.occurrence_count = 1) : List.insertionSort countGe l = l := by
  induction l with
  | nil => rfl
  | cons x xs ih =>
    show List.orderedInsert countGe x (List.insertionSort countGe xs) = x :: xs
    rw [ih (fun a ha => h a (by simp [ha]))]
    cases xs with
    | nil => rfl
    | cons y ys =>
      have hc : countGe x y := by
        unfold countGe
        rw [h x (by simp), h y (by simp)]
      rw [List.orderedInsert, if_pos hc]

theorem aggRecord_display_mem (g : List FpRow) (hne : g ≠ []) :
    ∃ r ∈ g, (aggRecord g).display_title = r.raw_name := by
  have hnames : g.map (fun r => r.raw_name) ≠ [] := by
    intro h0
    exact hne (List.map_eq_nil_iff.mp h0)
  obtain ⟨n0, ns, hns⟩ := List.exists_cons_of_ne_nil hnames
  have hpm : ∃ t, pickFirstMax (g.map (fun r => r.raw_name)) = some t := by
    rw [hns]
    cases hp : pickFirstMax (n0 :: ns) with
    | none => exact absurd hp (pickFirstMax_ne_none n0 ns)
    | some t => exact ⟨t, rfl⟩
  obtain ⟨t, ht⟩ := hpm
  have hhead : (List.insertionSort lenGe (g.map (fun r => r.raw_name))).head? = some t := by
    rw [head?_insertionSort_lenGe, ht]
  have hdisp : (aggRecord g).display_title = t := by
    unfold aggRecord
    cases hsort : List.insertionSort lenGe (g.map (fun r => r.raw_name)) with
    | nil => rw [hsort] at hhead; cases hhead
    | cons a rest =>
      rw [hsort] at hhead
      cases hhead
      rfl
  obtain ⟨pre, post, hdec, -, -⟩ := pickFirstMax_decomp _ t ht
  have htm : t ∈ g.map (fun r => r.raw_name) := by
    rw [hdec]
    exact List.mem_append_right _ (List.mem_cons_self t post)
  obtain ⟨r, hr, hrt⟩ := List.mem_map.mp htm
  exact ⟨r, hr, by rw [hdisp, hrt]⟩

/-! Helper lemmas: facts about every record the pipeline emits. -/

theorem generate_normalize_map (config : PipelineConfig) (synonyms : List (String × String))
    (rows : List RawRow) :
    generate_fingerprints synonyms (normalize_pricing config rows)
      = rows.map (fun r =>
          ⟨normalizeRow config r, fingerprintFn synonyms r.raw_name⟩) := by
  unfold generate_fingerprints normalize_pricing
  rw [List.map_map]
  rfl

theorem mem_pipelineRun (config : PipelineConfig) (rows : List RawRow) (rec : AggregateRecord)
    (h : rec ∈ pipelineRun config rows) :
    ∃ fp g, (fp, g) ∈ groupsOf (filter_anomalies config
        (generate_fingerprints config.synonyms (normalize_pricing config rows)))
      ∧ rec = aggRecord g := by
  unfold pipelineRun aggregate_products at h
  rw [List.mem_insertionSort] at h
  obtain ⟨⟨fp, g⟩, hg, hrec⟩ := List.mem_map.mp h
  exact ⟨fp, g, hg, hrec.symm⟩

theorem surv_member_facts (config : PipelineConfig) (rows : List RawRow) (r : FpRow)
    (hr : r ∈ filter_anomalies config
      (generate_fingerprints config.synonyms (normalize_pricing config rows))) :
    r.fingerprint = fingerprintFn config.synonyms r.raw_name ∧
    ∃ p, r.price_final = some p ∧ config.min_price_eur ≤ p ∧ 1 < r.fingerprint.length := by
  constructor
  · have hr2 : r ∈ generate_fingerprints config.synonyms (normalize_pricing config rows) :=
      List.mem_of_mem_filter hr
    rw [generate_normalize_map] at hr2
    obtain ⟨r0, _, hr0eq⟩ := List.mem_map.mp hr2
    rw [← hr0eq]
    rfl
  · have hsurv := List.of_mem_filter hr
    obtain ⟨p, gm, hp, _, hmin, _, hlen⟩ := (survivesB_eq_true_iff config _ r).mp hsurv
    exact ⟨p, hp, hmin, hlen⟩

theorem group_member_facts (config : PipelineConfig) (rows : List RawRow)
    (fp : String) (g : List FpRow)
    (hg : (fp, g) ∈ groupsOf (filter_anomalies config
      (generate_fingerprints config.synonyms (normalize_pricing config rows)))) :
    g ≠ [] ∧ ∀ r ∈ g,
      r ∈ filter_anomalies config
        (generate_fingerprints config.synonyms (normalize_pricing config rows)) ∧
      r.fingerprint = fp := by
  refine ⟨groupsOf_nonempty _ fp g hg, ?_⟩
  intro r hr
  have hgeq : g = List.filter (fun r => decide (r.fingerprint = fp))
      (filter_anomalies config
        (generate_fingerprints config.synonyms (normalize_pricing config rows))) :=
    mem_groupsOf _ (fp, g) hg
  rw [hgeq] at hr
  obtain ⟨h1, h2⟩ := List.mem_filter.mp hr
  exact ⟨h1, of_decide_eq_true h2⟩

theorem groupsOf_record_facts (config : PipelineConfig) (rows : List RawRow)
    (hmin : config.min_price_eur = 5) (fp : String) (g : List FpRow)
    (hg : (fp, g) ∈ groupsOf (filter_anomalies config
      (generate_fingerprints config.synonyms (normalize_pricing config rows)))) :
    fingerprintFn config.synonyms (aggRecord g).display_title = fp ∧ 1 < fp.length ∧
    ∃ n : ℕ, (aggRecord g).avg_price = some ((n : ℚ) / 100) ∧ 5 ≤ ((n : ℚ) / 100) := by
  obtain ⟨hne, hmem⟩ := group_member_facts config rows fp g hg
  refine ⟨?_, ?_, ?_⟩
  · obtain ⟨rd, hrd, hdisp⟩ := aggRecord_display_mem g hne
    obtain ⟨hrds, hrdfp⟩ := hmem rd hrd
    have hfn := (surv_member_facts config rows rd hrds).1
    rw [hdisp, ← hfn, hrdfp]
  · obtain ⟨r0, hr0⟩ : ∃ r, r ∈ g := by
      cases g with
      | nil => exact absurd rfl hne
      | cons a l => exact ⟨a, by simp⟩
    obtain ⟨hr0s, hr0fp⟩ := hmem r0 hr0
    obtain ⟨-, p, -, -, hlen⟩ := surv_member_facts config rows r0 hr0s
    rw [← hr0fp]
    exact hlen
  · have hprices : ∀ r ∈ g, ∃ p, r.price_final = some p ∧ 5 ≤ p := by
      intro r hr
      obtain ⟨hrs, -⟩ := hmem r hr
      obtain ⟨-, p, hp, hminp, -⟩ := surv_member_facts config rows r hrs
      exact ⟨p, hp, by rw [← hmin]; exact hminp⟩
    obtain ⟨r0, hr0⟩ : ∃ r, r ∈ g := by
      cases g with
      | nil => exact absurd rfl hne
      | cons a l => exact ⟨a, by simp⟩
    obtain ⟨p0, hp0, -⟩ := hprices r0 hr0
    cases hps : g.filterMap (fun r => r.price_final) with
    | nil =>
      exfalso
      have : p0 ∈ g.filterMap (fun r => r.price_final) :=
        List.mem_filterMap.mpr ⟨r0, hr0, hp0⟩
      rw [hps] at this
      cases this
    | cons p ps =>
      have havg : (aggRecord g).avg_price
          = some (round2 (((p :: ps).sum : ℚ) / (p :: ps).length)) := by
        unfold aggRecord
        rw [hps]
      have hge : ∀ x ∈ p :: ps, (5 : ℚ) ≤ x := by
        intro x hx
        rw [← hps] at hx
        obtain ⟨r, hr, hrx⟩ := List.mem_filterMap.mp hx
        obtain ⟨p', hp', h5p'⟩ := hprices r hr
        rw [hp'] at hrx
        rw [← Option.some.inj hrx]
        exact h5p'
      have hm5 : (5 : ℚ) ≤ ((p :: ps).sum : ℚ) / (p :: ps).length :=
        mean_ge 5 (p :: ps) (by simp) hge
      set m := ((p :: ps).sum : ℚ) / (p :: ps).length with hm
      have h5r : (5 : ℚ) ≤ round2 m := round2_ge_five m hm5
      have hz0 : roundHalfAwayInt 0 = 0 := by
        unfold roundHalfAwayInt
        rw [if_pos le_rfl]
        norm_num
      have hznn : 0 ≤ roundHalfAwayInt (m * 100) := by
        have := roundHalfAwayInt_mono_nonneg 0 (m * 100) le_rfl (by nlinarith)
        rw [hz0] at this
        exact this
      refine ⟨(roundHalfAwayInt (m * 100)).toNat, ?_, ?_⟩
      · rw [havg]
        unfold round2
        congr 2
        exact (Int.toNat_of_nonneg hznn).symm ▸ rfl
      · have hcast : (((roundHalfAwayInt (m * 100)).toNat : ℕ) : ℚ)
            = ((roundHalfAwayInt (m * 100) : ℤ) : ℚ) := by
          exact_mod_cast congrArg (fun z : ℤ => (z : ℚ)) (Int.toNat_of_nonneg hznn)
        rw [hcast]
        unfold round2 at h5r
        exact h5r

theorem pipelineRun_record_facts (config : PipelineConfig) (rows : List RawRow)
    (hmin : config.min_price_eur = 5) (rec : AggregateRecord)
    (h : rec ∈ pipelineRun config rows) :
    ∃ n : ℕ, rec.avg_price = some ((n : ℚ) / 100) ∧ 5 ≤ ((n : ℚ) / 100) ∧
      1 < (fingerprintFn config.synonyms rec.display_title).length := by
  obtain ⟨fp, g, hg, hrec⟩ := mem_pipelineRun config rows rec h
  obtain ⟨hdispfp, hlen, n, havg, h5⟩ := groupsOf_record_facts config rows hmin fp g hg
  subst hrec
  refine ⟨n, havg, h5, ?_⟩
  rw [hdispfp]
  exact hlen

theorem aggRecord_singleton (r : FpRow) (p : ℚ) (hp : r.price_final = some p)
    (hr2 : round2 p = p) :
    aggRecord [r] = ⟨r.raw_name, some p, 1⟩ := by
  unfold aggRecord
  have hfm : ([r] : List FpRow).filterMap (fun r => r.price_final) = [p] := by
    rw [List.filterMap_cons, hp]
    rfl
  rw [hfm]
  show (⟨r.raw_name, some (round2 ((([p] : List ℚ).sum : ℚ) / (([p] : List ℚ).length : ℚ))), 1⟩
      : AggregateRecord) = ⟨r.raw_name, some p, 1⟩
  have hsum : (([p] : List ℚ).sum : ℚ) / (([p] : List ℚ).length : ℚ) = p := by
    simp
  rw [hsum, hr2]

theorem uniqueKeysAux_nodup (l : List String) :
    ∀ seen, (uniqueKeysAux seen l).Nodup ∧ ∀ x ∈ uniqueKeysAux seen l, x ∉ seen := by
  induction l with
  | nil =>
    intro seen
    exact ⟨List.nodup_nil, fun x hx => absurd hx (List.not_mem_nil x)⟩
  | cons k ks ih =>
    intro seen
    unfold uniqueKeysAux
    by_cases hk : k ∈ seen
    · rw [if_pos hk]
      exact ih seen
    · rw [if_neg hk]
      obtain ⟨hnd, hnm⟩ := ih (k :: seen)
      constructor
      · rw [List.nodup_cons]
        exact ⟨fun hc => hnm k hc (by simp), hnd⟩
      · intro x hx
        rcases List.mem_cons.mp hx with h1 | h2
        · rw [h1]; exact hk
        · intro hxs
          exact hnm x h2 (by simp [hxs])

theorem groupsOf_keys (l : List FpRow) :
    (groupsOf l).map Prod.fst = uniqueKeysAux [] (l.map (fun r => r.fingerprint)) := by
  unfold groupsOf
  rw [List.map_map]
  have hcomp : (Prod.fst ∘ fun fp =>
      (fp, l.filter (fun r => decide (r.fingerprint = fp)))) = fun fp : String => fp := rfl
  rw [hcomp]
  exact List.map_id' _

/-- C8 (amended): provided every emitted `avg_price` is at most the
`price_scale_threshold` (default 10000), re-running the whole pipeline on
its own output — each record re-fed as a single already-fingerprinted row —
leaves `display_title` and `avg_price` of every record unchanged and makes
every `occurrence_count` equal to 1. -/
theorem C8_amended_rerun_idempotent (rate : ℚ) (synonyms : List (String × String))
    (rows : List RawRow)
    (hbound : ∀ rec ∈ pipelineRun (cfgStd rate synonyms) rows,
      ∀ a : ℚ, rec.avg_price = some a → a ≤ 10000) :
    pipelineRun (cfgStd rate synonyms) (reinputOf (pipelineRun (cfgStd rate synonyms) rows))
      = (pipelineRun (cfgStd rate synonyms) rows).map
          (fun rec => { rec with occurrence_count := 1 }) := by
  set cfg := cfgStd rate synonyms with hcfg
  have hmin : cfg.min_price_eur = 5 := rfl
  have hthresh : cfg.price_scale_threshold = 10000 := rfl
  have hmult : cfg.max_price_multiplier = 10 := rfl
  set out := pipelineRun cfg rows with hout
  have hP : ∀ rec ∈ out, ∃ n : ℕ, rec.avg_price = some ((n : ℚ) / 100) ∧
      5 ≤ ((n : ℚ) / 100) ∧ ((n : ℚ) / 100) ≤ 10000 ∧
      1 < (fingerprintFn cfg.synonyms rec.display_title).length := by
    intro rec hrec
    have hrec' : rec ∈ pipelineRun cfg rows := by rw [← hout]; exact hrec
    obtain ⟨n, h1, h2, h3⟩ := pipelineRun_record_facts cfg rows hmin rec hrec'
    exact ⟨n, h1, h2, hbound rec hrec _ h1, h3⟩
  set processed := generate_fingerprints cfg.synonyms (normalize_pricing cfg (reinputOf out))
    with hprocdef
  have hproc2 : processed = out.map (fun rec =>
      (⟨normalizeRow cfg ⟨0, rec.display_title,
          (match rec.avg_price with | some a => formatPrice a | none => ""), "", ""⟩,
        fingerprintFn cfg.synonyms rec.display_title⟩ : FpRow)) := by
    rw [hprocdef, generate_normalize_map]
    show (reinputOf out).map _ = _
    unfold reinputOf
    rw [List.map_map]
    rfl
  have hrowfact : ∀ x ∈ processed, ∃ rec ∈ out, ∃ n : ℕ,
      rec.avg_price = some ((n : ℚ) / 100) ∧ 5 ≤ ((n : ℚ) / 100) ∧
      1 < (fingerprintFn cfg.synonyms rec.display_title).length ∧
      x = (⟨⟨⟨0, rec.display_title, String.mk (formatCents n), "", ""⟩, false,
            some ((n : ℚ) / 100), some ((n : ℚ) / 100), some ((n : ℚ) / 100)⟩,
            fingerprintFn cfg.synonyms rec.display_title⟩ : FpRow) := by
    intro x hx
    rw [hproc2] at hx
    obtain ⟨rec, hrec, hxeq⟩ := List.mem_map.mp hx
    obtain ⟨n, havg, h5, h10k, hlen⟩ := hP rec hrec
    refine ⟨rec, hrec, n, havg, h5, hlen, ?_⟩
    rw [← hxeq]
    simp only [havg]
    rw [formatPrice_cents]
    rw [normalizeRow_format cfg 0 rec.display_title "" "" n hthresh h10k]
  have hfps : processed.map (fun r => r.fingerprint)
      = out.map (fun rec => fingerprintFn cfg.synonyms rec.display_title) := by
    rw [hproc2, List.map_map]
    rfl
  have houteq : out = List.insertionSort countGe
      ((groupsOf (filter_anomalies cfg (generate_fingerprints cfg.synonyms
        (normalize_pricing cfg rows)))).map (fun g => aggRecord g.2)) := by
    rw [hout]
    rfl
  have hperm : out.Perm ((groupsOf (filter_anomalies cfg (generate_fingerprints cfg.synonyms
      (normalize_pricing cfg rows)))).map (fun g => aggRecord g.2)) := by
    rw [houteq]
    exact List.perm_insertionSort countGe _
  have hndrec : ((((groupsOf (filter_anomalies cfg (generate_fingerprints cfg.synonyms
      (normalize_pricing cfg rows)))).map (fun g => aggRecord g.2))).map
      (fun rec => fingerprintFn cfg.synonyms rec.display_title)).Nodup := by
    rw [List.map_map]
    have heq : (groupsOf (filter_anomalies cfg (generate_fingerprints cfg.synonyms
        (normalize_pricing cfg rows)))).map
          ((fun rec => fingerprintFn cfg.synonyms rec.display_title) ∘ (fun g => aggRecord g.2))
        = (groupsOf (filter_anomalies cfg (generate_fingerprints cfg.synonyms
            (normalize_pricing cfg rows)))).map Prod.fst := by
      refine map_congr_mem _ _ _ ?_
      intro gp hgp
      exact (groupsOf_record_facts cfg rows hmin gp.1 gp.2 hgp).1
    rw [heq, groupsOf_keys]
    exact (uniqueKeysAux_nodup _ []).1
  have hndout : (out.map (fun rec => fingerprintFn cfg.synonyms rec.display_title)).Nodup :=
    ((hperm.map _).nodup_iff).mpr hndrec
  have hnd : (processed.map (fun r => r.fingerprint)).Nodup := by
    rw [hfps]
    exact hndout
  have hsurvall : ∀ x ∈ processed,
      survivesB cfg (colMeanOverFingerprint processed x.fingerprint) x = true := by
    intro x hx
    obtain ⟨rec, hrec, n, havg, h5, hlen, hxeq⟩ := hrowfact x hx
    rw [colMean_self processed hnd x hx]
    rw [survivesB_eq_true_iff]
    refine ⟨(n : ℚ) / 100, (n : ℚ) / 100, ?_, ?_, ?_, ?_, ?_⟩
    · rw [hxeq]
    · rw [hxeq]
    · rw [hmin]; exact h5
    · rw [hmult]; nlinarith [h5]
    · rw [hxeq]; exact hlen
  have hfiltereq : filter_anomalies cfg processed = processed := by
    unfold filter_anomalies
    exact List.filter_eq_self.mpr hsurvall
  have hgroups := groupsOf_nodup processed hnd
  have hlhs : pipelineRun cfg (reinputOf out) = aggregate_products processed := by
    unfold pipelineRun
    rw [← hprocdef, hfiltereq]
  rw [hlhs]
  unfold aggregate_products
  rw [hgroups, List.map_map]
  have hall1 : ∀ y ∈ processed.map
      ((fun g : String × List FpRow => aggRecord g.2) ∘ (fun r => (r.fingerprint, [r]))),
      y.occurrence_count = 1 := by
    intro y hy
    obtain ⟨r, hr, hyeq⟩ := List.mem_map.mp hy
    rw [← hyeq]
    rfl
  rw [insertionSort_countGe_const _ hall1]
  rw [hproc2, List.map_map]
  refine map_congr_mem out _ _ ?_
  intro rec hrec
  obtain ⟨n, havg, h5, h10k, hlen⟩ := hP rec hrec
  show aggRecord [(⟨normalizeRow cfg ⟨0, rec.display_title,
      (match rec.avg_price with | some a => formatPrice a | none => ""), "", ""⟩,
      fingerprintFn cfg.synonyms rec.display_title⟩ : FpRow)]
    = { rec with occurrence_count := 1 }
  have hrow : (⟨normalizeRow cfg ⟨0, rec.display_title,
      (match rec.avg_price with | some a => formatPrice a | none => ""), "", ""⟩,
      fingerprintFn cfg.synonyms rec.display_title⟩ : FpRow)
      = (⟨⟨⟨0, rec.display_title, String.mk (formatCents n), "", ""⟩, false,
          some ((n : ℚ) / 100), some ((n : ℚ) / 100), some ((n : ℚ) / 100)⟩,
          fingerprintFn cfg.synonyms rec.display_title⟩ : FpRow) := by
    simp only [havg]
    rw [formatPrice_cents]
    rw [normalizeRow_format cfg 0 rec.display_title "" "" n hthresh h10k]
  rw [hrow]
  have hsingle := aggRecord_singleton
    (⟨⟨⟨0, rec.display_title, String.mk (formatCents n), "", ""⟩, false,
        some ((n : ℚ) / 100), some ((n : ℚ) / 100), some ((n : ℚ) / 100)⟩,
        fingerprintFn cfg.synonyms rec.display_title⟩ : FpRow)
    ((n : ℚ) / 100) rfl (round2_cents_nat n)
  rw [hsingle]
  show (⟨rec.display_title, some ((n : ℚ) / 100), 1⟩ : AggregateRecord)
      = ⟨rec.display_title, rec.avg_price, 1⟩
  rw [havg]

/-- C8 (counterexample): a clean one-row catalog whose output average price
19700 exceeds the scale threshold; re-running the pipeline on that output
re-triggers the divide-by-100 scale correction, changing `avg_price` from
19700 to 197. -/
theorem C8_rerun_counterexample :
    pipelineRun cfgDefault [⟨1, "ab", "1970000", "s", "d"⟩]
      = [⟨"ab", some 19700, 1⟩] ∧
    pipelineRun cfgDefault (reinputOf (pipelineRun cfgDefault [⟨1, "ab", "1970000", "s", "d"⟩]))
      = [⟨"ab", some 197, 1⟩] ∧
    pipelineRun cfgDefault (reinputOf (pipelineRun cfgDefault [⟨1, "ab", "1970000", "s", "d"⟩]))
      ≠ (pipelineRun cfgDefault [⟨1, "ab", "1970000", "s", "d"⟩]).map
          (fun rec => { rec with occurrence_count := 1 }) := by
  refine ⟨?_, ?_, ?_⟩ <;> decide

/-- C8 (amended) witness: a one-row catalog whose output average 50 is below
the threshold; the re-run reproduces it with occurrence count 1. -/
theorem C8_amended_rerun_idempotent_witness :
    (∀ rec ∈ pipelineRun (cfgStd (11 / 10) []) [⟨1, "ab", "50", "s", "d"⟩],
      ∀ a : ℚ, rec.avg_price = some a → a ≤ 10000) ∧
    pipelineRun (cfgStd (11 / 10) [])
        (reinputOf (pipelineRun (cfgStd (11 / 10) []) [⟨1, "ab", "50", "s", "d"⟩]))
      = (pipelineRun (cfgStd (11 / 10) []) [⟨1, "ab", "50", "s", "d"⟩]).map
          (fun rec => { rec with occurrence_count := 1 }) :=
  ⟨by decide,
    C8_amended_rerun_idempotent (11 / 10) [] [⟨1, "ab", "50", "s", "d"⟩]
      (by decide)⟩

end Pipeline
